import Mathlib

/-!
# Verification of the RAG engine core (backend/app)

Shallow embedding, in Lean 4, of the retrieval-augmented-generation core of
the repository: the MMR reranker with metadata boosting
(`app/rag/core.py`, `RAGEngine._mmr_rerank`), chunk ingestion with
content-hash deduplication (`RAGEngine.ingest_chunks`), the in-memory
vector store (`app/rag/stores.py`, `InMemoryStore`), word-window chunking
(`app/ingest/helpers.py`, `chunk_text`), document loading
(`app/ingest/core.py`, `load_documents`, `build_chunks_from_docs`),
answer generation accounting (`RAGEngine.generate`) and engine
construction with vector-store fallback (`RAGEngine.__init__`,
`RAGEngine.stats`).

Python floats are modelled as exact rationals (the boost factors 1.2,
1.15, 1.1, 1.05 and the MMR weights 0.7 / 0.3 are exact in ℚ).  External
collaborators (the SHA-256 hash, the embedder, the Qdrant client, the
LLM backend) are parameters of the embedded functions: every theorem
below holds for an arbitrary choice of these collaborators.
-/

/-- Chunk/record metadata, as built by `RAGEngine.ingest_chunks`
(`core.py` lines 235–243): keys `id`, `hash`, `title`, `section`,
`text`, `heading_level`, `section_priority`.  The Python side stores it
as an open dict; `_mmr_rerank` reads the optional keys with
`meta.get("heading_level", 0)` and `meta.get("section_priority", "low")`,
so an absent key is the same as the default value recorded here. -/
structure Meta where
  id : String
  hash : String
  title : String
  sectionName : Option String
  text : String
  heading_level : Int
  section_priority : String
deriving DecidableEq, Repr, Inhabited

/-- Input chunk dictionary for `ingest_chunks`, as produced by
`build_chunks_from_docs` (`ingest/core.py`): keys `title`, `section`,
`text`, `heading_level`, `section_priority`. -/
structure Chunk where
  title : String
  sectionName : Option String
  text : String
  heading_level : Int
  section_priority : String
deriving DecidableEq, Repr, Inhabited

/-! ## The MMR reranker (`RAGEngine._mmr_rerank`, core.py 158–208) -/

/-- The metadata boost of `_mmr_rerank` (core.py 177–193): multiply by
the heading-level factor (1 → ×1.2, 2 → ×1.15, 3 → ×1.1, else ×1.0),
then by the section-priority factor (high → ×1.15, medium → ×1.05,
else ×1.0). -/
def boostFactor (m : Meta) : ℚ :=
  (if m.heading_level = 1 then (12 : ℚ)/10
   else if m.heading_level = 2 then (115 : ℚ)/100
   else if m.heading_level = 3 then (11 : ℚ)/10
   else 1) *
  (if m.section_priority = "high" then (115 : ℚ)/100
   else if m.section_priority = "medium" then (105 : ℚ)/100
   else 1)

/-- The diversity penalty of `_mmr_rerank` (core.py 195–200): `max_sim`
is set to 1.0 exactly when some already-selected item has the identical
(title, section) pair, else it stays 0.0. -/
def maxSim (selected : List Meta) (m : Meta) : ℚ :=
  if selected.any (fun sel => sel.title = m.title ∧ sel.sectionName = m.sectionName) then 1 else 0

/-- The MMR objective of `_mmr_rerank` (core.py 202–203):
`lambda * boosted_score - (1 - lambda) * max_sim`. -/
def mmrScore (lam : ℚ) (selected : List Meta) (score : ℚ) (m : Meta) : ℚ :=
  lam * (score * boostFactor m) - (1 - lam) * maxSim selected m

/-- The inner `for idx, (score, meta) in enumerate(remaining)` scan of
`_mmr_rerank` (core.py 172–206): running `(best_mmr, best_idx)` pair,
starting at `(-inf, 0)` and replaced whenever the current MMR score is
strictly greater.  `-inf` is modelled as `none` (any rational beats it). -/
def loopPick (lam : ℚ) (selected : List Meta) (remaining : List (ℚ × Meta)) :
    Option ℚ × Nat :=
  remaining.enum.foldl
    (fun best p =>
      let s := mmrScore lam selected p.2.1 p.2.2
      match best.1 with
      | none => (some s, p.1)
      | some b => if s > b then (some s, p.1) else best)
    (none, 0)

/-- The greedy `while len(selected) < k and remaining:` loop of
`_mmr_rerank` (core.py 170–206): pick the index maximising the MMR
objective, move that element from the pool to the selection.  The `fuel`
argument makes the recursion structural; since every iteration removes
exactly one pool element (`loopPick_lt`), starting the loop with
`fuel = remaining.length` reproduces the Python `while` loop exactly —
the fuel cannot run out before the pool does. -/
def mmrLoop (lam : ℚ) (k : Nat) : Nat → List Meta → List (ℚ × Meta) → List Meta
  | 0, selected, _ => selected
  | fuel + 1, selected, remaining =>
    if selected.length < k ∧ remaining ≠ [] then
      let j := (loopPick lam selected remaining).2
      mmrLoop lam k fuel (selected ++ [(remaining.getD j default).2])
        (remaining.eraseIdx j)
    else selected

/-- Embedding of `RAGEngine._mmr_rerank` (core.py 158–208).  Shortcut: with an empty
candidate list or `k >= len(candidates)` return the candidates truncated
to `k` (no boosting, no reranking).  Otherwise seed the selection with
`remaining.pop(0)` — the FIRST candidate — and run the greedy loop over
the rest of the pool. -/
def mmrRerank (lam : ℚ) (candidates : List (ℚ × Meta)) (k : Nat) : List Meta :=
  if candidates = [] ∨ candidates.length ≤ k then
    (candidates.take k).map Prod.snd
  else
    match candidates with
    | [] => []
    | (_, m) :: rest => mmrLoop lam k rest.length [m] rest

/-! ## The in-memory vector store (`InMemoryStore`, stores.py 12–64)

Embedding vectors are opaque here: the store is parametric in the
vector type `V` (the Python store holds `np.ndarray`s). -/

/-- Embedding of `InMemoryStore` (stores.py): parallel lists `vecs`/`meta` plus the
`_hashes` set.  `dim` is carried for faithfulness (never consulted). -/
structure InMemoryStore (V : Type) where
  dim : Nat
  vecs : List V
  meta : List Meta
  hashes : Finset String
deriving DecidableEq

/-- Embedding of `InMemoryStore.__init__(dim=384)` — empty store. -/
def InMemoryStore.init (V : Type) (dim : Nat := 384) : InMemoryStore V :=
  { dim := dim, vecs := [], meta := [], hashes := ∅ }

/-- One iteration of the `for v, m in zip(vectors, metadatas):` loop of
`InMemoryStore.upsert` (stores.py 36–42): read `h = m.get("hash")`; if
`h` is truthy (nonempty) and already in `_hashes`, skip the record;
otherwise append the vector and metadata and (when `h` is truthy)
record the hash. -/
def upsertStep {V : Type} (st : InMemoryStore V) (p : V × Meta) : InMemoryStore V :=
  if p.2.hash ≠ "" ∧ p.2.hash ∈ st.hashes then st
  else
    { st with
      vecs := st.vecs ++ [p.1],
      meta := st.meta ++ [p.2],
      hashes := if p.2.hash ≠ "" then insert p.2.hash st.hashes else st.hashes }

/-- Embedding of `InMemoryStore.upsert` (stores.py 25–42): fold the per-record step
over the zipped (vector, metadata) batch. -/
def InMemoryStore.upsert {V : Type} (st : InMemoryStore V)
    (vectors : List V) (metadatas : List Meta) : InMemoryStore V :=
  (vectors.zip metadatas).foldl upsertStep st

/-! ## Word-window chunking (`chunk_text`, ingest/helpers.py 54–75) -/

/-- Scanner for `pySplit`: walk the characters once, accumulating the
current (reversed) word; a whitespace character closes the current word
if any. -/
def pyWordsAux : List Char → List Char → List String
  | [], acc => if acc.isEmpty then [] else [String.mk acc.reverse]
  | c :: cs, acc =>
    if c.isWhitespace then
      if acc.isEmpty then pyWordsAux cs []
      else String.mk acc.reverse :: pyWordsAux cs []
    else pyWordsAux cs (c :: acc)

/-- Python `str.split()` with no separator argument, as used by
`chunk_text` (`tokens = text.split()`): the maximal runs of
non-whitespace characters, in order — splitting on whitespace runs with
no empty pieces. -/
def pySplit (text : String) : List String := pyWordsAux text.toList []

/-- The `while i < len(tokens):` loop of `chunk_text`
(ingest/helpers.py 66–74), with an explicit fuel argument standing for
the number of loop iterations still permitted: each iteration appends
`" ".join(tokens[i:i+chunk_size])`, breaks when `i + chunk_size >=
len(tokens)`, and otherwise advances `i` by `chunk_size - overlap`.
When the fuel runs out the embedded loop stops early — the Python loop
would still be running — so a result independent of all large-enough
fuels is exactly a terminating run of the Python loop. -/
def chunkLoop (tokens : List String) (chunk_size overlap : Nat) :
    Nat → Nat → List String
  | 0, _ => []
  | fuel + 1, i =>
    if i < tokens.length then
      let chunk := " ".intercalate ((tokens.drop i).take chunk_size)
      if tokens.length ≤ i + chunk_size then [chunk]
      else chunk :: chunkLoop tokens chunk_size overlap fuel (i + (chunk_size - overlap))
    else []

/-- Embedding of `chunk_text(text, chunk_size, overlap)` (ingest/helpers.py 54–75):
tokenize with `text.split()` and run the window loop from `i = 0`.
`tokens.length + 1` iterations always suffice when
`overlap < chunk_size` (theorem `chunkLoop_fuel_irrelevant`). -/
def chunk_text (text : String) (chunk_size overlap : Nat) : List String :=
  let tokens := pySplit text
  chunkLoop tokens chunk_size overlap (tokens.length + 1) 0

/-! ## Document loading (`load_documents`, `build_chunks_from_docs`,
ingest/core.py)

The directory is modelled as the sorted listing `os.listdir` produces:
a list of (filename, file text) pairs.  The Markdown section splitter
`_md_sections` and the keyword classifier `_detect_section_priority`
are regex/keyword routines irrelevant to the claims below (they never
touch the document title), so they are parameters: every theorem holds
for arbitrary `mdSections` and `prio` collaborators. -/

/-- One entry of the list returned by `load_documents`
(ingest/core.py 40–47). -/
structure Doc where
  title : String
  sectionName : String
  text : String
  heading_level : Nat
  section_priority : String
deriving DecidableEq, Repr, Inhabited

/-- Decides whether `pat` is an initial segment of `l` (both as character lists). -/
def charsStart : List Char → List Char → Bool
  | [], _ => true
  | _ :: _, [] => false
  | a :: as, b :: bs => a == b && charsStart as bs

/-- Case-insensitive extension test
`fname.lower().endswith((".md", ".txt"))` (ingest/core.py 31): lowercase
the characters and test each extension as a suffix (an initial segment
of the reversed character list). -/
def hasDocExt (fname : String) : Bool :=
  charsStart ".md".toList.reverse (fname.toList.map Char.toLower).reverse ||
  charsStart ".txt".toList.reverse (fname.toList.map Char.toLower).reverse

/-- One iteration of the `for fname in sorted(os.listdir(data_dir)):`
loop of `load_documents` (ingest/core.py 26–50): skip the reserved file
`Internal_SOP_Agent_Guide.md`; skip files without a `.md`/`.txt`
extension; for every section `(section, body, heading_level)` of the
file, emit a Doc whose `title` is the FILE NAME, with
`section_priority` computed from the section heading.
`mdSections` stands for `_md_sections`, `prio` for
`_detect_section_priority` (helpers.py). -/
def loadStep (mdSections : String → List (String × String × Nat))
    (prio : String → String) (docs : List Doc) (f : String × String) : List Doc :=
  if f.1 = "Internal_SOP_Agent_Guide.md" then docs
  else if ¬ hasDocExt f.1 then docs
  else
    docs ++ (mdSections f.2).map
      (fun s =>
        { title := f.1, sectionName := s.1, text := s.2.1,
          heading_level := s.2.2, section_priority := prio s.1 })

/-- Embedding of `load_documents(data_dir)` (ingest/core.py 11–57): fold `loadStep`
over the sorted directory listing. -/
def load_documents (mdSections : String → List (String × String × Nat))
    (prio : String → String) (files : List (String × String)) : List Doc :=
  files.foldl (loadStep mdSections prio) []

/-- One iteration of the chunk-building loop of
`build_chunks_from_docs` (ingest/core.py 77–83): split one document
section's text with `chunk_text`, copying `title`, `section`,
`heading_level` and `section_priority` onto every chunk. -/
def buildStep (chunk_size overlap : Nat) (out : List Chunk) (d : Doc) :
    List Chunk :=
  out ++ (chunk_text d.text chunk_size overlap).map
    (fun ch =>
      { title := d.title, sectionName := some d.sectionName, text := ch,
        heading_level := (d.heading_level : Int),
        section_priority := d.section_priority })

/-- Embedding of `build_chunks_from_docs(docs, chunk_size, overlap)` as a fold of
`buildStep` over the loaded document sections. -/
def build_chunks_from_docs (docs : List Doc) (chunk_size overlap : Nat) :
    List Chunk :=
  docs.foldl (buildStep chunk_size overlap) []

/-! ## The engine (`RAGEngine`, core.py)

The engine's mutable state.  The vector store is parametric (`S`) — the
ingest/generate operations never inspect it, they only thread it through
the parametrized `upsertF` collaborator.  `hash` stands for
`doc_hash = hashlib.sha256(...).hexdigest()` (ingest/utils.py) and
`embed` for `LocalEmbedder.embed` (embedders.py): both are external
collaborators, and every theorem holds for an arbitrary choice. -/

/-- The `RAGEngine` mutable fields (core.py 137–141 and 76–88):
`_doc_titles`, `_chunk_hashes`, `_chunk_count`, `_ask_count`,
`_fallback_used`, the store, and the two `Metrics` latency lists. -/
structure EngineState (S : Type) where
  store : S
  doc_titles : Finset String
  chunk_hashes : Finset String
  chunk_count : Nat
  ask_count : Nat
  fallback_used : Bool
  t_retrieval : List ℚ
  t_generation : List ℚ
deriving DecidableEq

/-- Accumulator of the `for ch in chunks:` loop of
`RAGEngine.ingest_chunks` (core.py 228–247): the engine's dedup-hash
set, title set and chunk counter, plus the `vectors`/`metas` batch. -/
structure IngestAcc (V : Type) where
  hashes : Finset String
  titles : Finset String
  count : Nat
  vectors : List V
  metas : List Meta
deriving DecidableEq

/-- One iteration of the ingest loop (core.py 228–247): hash the chunk
text; skip if already seen; otherwise record the hash, build the
metadata record, embed, extend the batch, record the title, bump the
counter. -/
def ingestStep {V : Type} (hash : String → String) (embed : String → V)
    (acc : IngestAcc V) (ch : Chunk) : IngestAcc V :=
  if hash ch.text ∈ acc.hashes then acc
  else
    { hashes := insert (hash ch.text) acc.hashes,
      titles := insert ch.title acc.titles,
      count := acc.count + 1,
      vectors := acc.vectors ++ [embed ch.text],
      metas := acc.metas ++
        [{ id := hash ch.text, hash := hash ch.text, title := ch.title,
           sectionName := ch.sectionName, text := ch.text,
           heading_level := ch.heading_level,
           section_priority := ch.section_priority }] }

/-- Embedding of `RAGEngine.ingest_chunks(chunks)` (core.py 210–261): run the dedup
loop over all chunks, then — only if the batch is nonempty — make the
single `store.upsert(vectors, metas)` call.  `upsertF` is the store's
upsert, which may raise (`Except.error`); on error the exception
propagates (core.py 259–261 re-raises) but the loop's state updates have
already happened.  Returns the Python return value
`(new_docs, new_chunks)` (or the propagated error), the engine state
after the call, and the batch of metadata records passed to `upsert`
(`[]` when no upsert call was issued). -/
def ingest_chunks {V S E : Type} (hash : String → String) (embed : String → V)
    (upsertF : S → List V → List Meta → Except E S)
    (st : EngineState S) (chunks : List Chunk) :
    Except E (Nat × Nat) × EngineState S × List Meta :=
  let acc := chunks.foldl (ingestStep hash embed)
    { hashes := st.chunk_hashes, titles := st.doc_titles,
      count := st.chunk_count, vectors := [], metas := [] }
  let st' := { st with chunk_hashes := acc.hashes, doc_titles := acc.titles,
                       chunk_count := acc.count }
  if acc.vectors.isEmpty then
    (.ok (acc.titles.card - st.doc_titles.card, acc.metas.length), st', [])
  else
    match upsertF st.store acc.vectors acc.metas with
    | .ok s2 =>
        (.ok (acc.titles.card - st.doc_titles.card, acc.metas.length),
         { st' with store := s2 }, acc.metas)
    | .error e => (.error e, st', acc.metas)

/-- Embedding of `RAGEngine.generate(query, contexts)` (core.py 289–312): call the
LLM; on success append a generation-latency sample and bump
`_ask_count`; on exception bump `_ask_count` and re-raise.  `llmGen`
stands for `self.llm.generate` and `elapsed_ms` for the measured
wall-clock time, both external. -/
def RAGEngine.generate {S E : Type} (llmGen : String → List Meta → Except E String)
    (elapsed_ms : ℚ) (st : EngineState S) (query : String) (contexts : List Meta) :
    Except E String × EngineState S :=
  match llmGen query contexts with
  | .ok answer =>
      (.ok answer,
       { st with t_generation := st.t_generation ++ [elapsed_ms],
                 ask_count := st.ask_count + 1 })
  | .error e => (.error e, { st with ask_count := st.ask_count + 1 })

/-- The store held by a constructed engine: either the Qdrant-backed
store (opaque type `Q`, an external service client) or the in-memory
store. -/
inductive StoreImpl (Q V : Type) where
  | qdrant (q : Q)
  | memory (m : InMemoryStore V)
deriving DecidableEq

/-- The vector-store selection of `RAGEngine.__init__` (core.py 76–88):
when `settings.vector_store == "qdrant"`, try to construct the
`QdrantStore`; on any exception fall back to a fresh
`InMemoryStore(dim=384)` and set `_fallback_used = True`; otherwise use
a fresh `InMemoryStore(dim=384)` with `_fallback_used = False`.
`qdrantInit` is the outcome of the external `QdrantStore(...)`
constructor. -/
def selectStore {Q V E : Type} (vector_store : String) (qdrantInit : Except E Q) :
    StoreImpl Q V × Bool :=
  if vector_store = "qdrant" then
    match qdrantInit with
    | .ok q => (.qdrant q, false)
    | .error _ => (.memory (InMemoryStore.init V 384), true)
  else (.memory (InMemoryStore.init V 384), false)

/-- Embedding of `RAGEngine.__init__` restricted to the state the claims touch
(core.py 76–88 and 137–141): pick the store, clear every counter and
set. -/
def engineInit {Q V E : Type} (vector_store : String) (qdrantInit : Except E Q) :
    EngineState (StoreImpl Q V) :=
  let p := selectStore (V := V) vector_store qdrantInit
  { store := p.1, doc_titles := ∅, chunk_hashes := ∅, chunk_count := 0,
    ask_count := 0, fallback_used := p.2, t_retrieval := [], t_generation := [] }

/-- The dictionary returned by `RAGEngine.stats()` (core.py 314–330). -/
structure Stats where
  total_docs : Nat
  total_chunks : Nat
  ask_count : Nat
  fallback_used : Bool
  embedding_model : String
  llm_model : String
  avg_retrieval_latency_ms : ℚ
  avg_generation_latency_ms : ℚ
deriving DecidableEq

/-- Python `round(x, 2)`.  (Python rounds half to even while Mathlib's
`round` rounds half up; the two agree away from exact half-cent values
and no claim below depends on the rounding of an average.) -/
def round2 (x : ℚ) : ℚ := (round (x * 100) : ℤ) / 100

/-- Embedding of `Metrics.summary` (core.py 30–37): average of the recorded samples,
`0.0` when there are none, rounded to two decimals. -/
def metricsAvg (samples : List ℚ) : ℚ :=
  if samples = [] then 0 else round2 (samples.sum / samples.length)

/-- Embedding of `RAGEngine.stats()` (core.py 314–330). -/
def RAGEngine.stats {S : Type} (embedding_model llm_model : String)
    (st : EngineState S) : Stats :=
  { total_docs := st.doc_titles.card,
    total_chunks := st.chunk_count,
    ask_count := st.ask_count,
    fallback_used := st.fallback_used,
    embedding_model := embedding_model,
    llm_model := llm_model,
    avg_retrieval_latency_ms := metricsAvg st.t_retrieval,
    avg_generation_latency_ms := metricsAvg st.t_generation }

/-! ## Helper lemmas -/

/-- The chosen index of `loopPick` stays below the length of a nonempty
pool (the Python loop always visits index 0 first). -/
theorem loopPick_lt (lam : ℚ) (selected : List Meta) (remaining : List (ℚ × Meta))
    (h : remaining ≠ []) : (loopPick lam selected remaining).2 < remaining.length := by
  classical
  unfold loopPick
  suffices H : ∀ (l : List (Nat × (ℚ × Meta))) (acc : Option ℚ × Nat) (n : Nat),
      acc.2 < n → (∀ p ∈ l, p.1 < n) →
      (l.foldl
        (fun best p =>
          let s := mmrScore lam selected p.2.1 p.2.2
          match best.1 with
          | none => (some s, p.1)
          | some b => if s > b then (some s, p.1) else best)
        acc).2 < n by
    refine H _ _ _ ?_ ?_
    · cases remaining with
      | nil => exact absurd rfl h
      | cons a l => simp
    · intro p hp
      exact List.fst_lt_of_mem_enum hp
  intro l
  induction l with
  | nil => intro acc n h1 _; simpa using h1
  | cons a l ih =>
    intro acc n h1 h2
    simp only [List.foldl_cons]
    apply ih
    · cases hacc : acc.1 with
      | none => exact h2 a (by simp)
      | some b =>
        simp only [hacc]
        split
        · exact h2 a (by simp)
        · exact h1
    · intro p hp; exact h2 p (List.mem_cons_of_mem _ hp)

/-- The step `upsertStep` never removes a hash from the store's hash set. -/
theorem upsertStep_hashes_mono {V : Type} (st : InMemoryStore V) (p : V × Meta) :
    st.hashes ⊆ (upsertStep st p).hashes := by
  unfold upsertStep
  split
  · exact Finset.Subset.refl _
  · simp only
    split
    · exact Finset.subset_insert _ _
    · exact Finset.Subset.refl _

/-- The upsert fold never removes a hash from the store's hash set. -/
theorem upsert_fold_hashes_mono {V : Type} :
    ∀ (l : List (V × Meta)) (st : InMemoryStore V),
      st.hashes ⊆ (l.foldl upsertStep st).hashes := by
  intro l
  induction l with
  | nil => intro st; exact Finset.Subset.refl _
  | cons p l ih =>
    intro st
    exact (upsertStep_hashes_mono st p).trans (ih (upsertStep st p))

/-- After the upsert fold, every nonempty hash of the batch is in the
store's hash set. -/
theorem upsert_fold_adds {V : Type} :
    ∀ (l : List (V × Meta)) (st : InMemoryStore V), ∀ p ∈ l, p.2.hash ≠ "" →
      p.2.hash ∈ (l.foldl upsertStep st).hashes := by
  intro l
  induction l with
  | nil => intro st p hp; exact absurd hp (List.not_mem_nil p)
  | cons q l ih =>
    intro st p hp hne
    rcases List.mem_cons.1 hp with h | h
    · subst h
      simp only [List.foldl_cons]
      apply upsert_fold_hashes_mono
      unfold upsertStep
      by_cases hc : p.2.hash ≠ "" ∧ p.2.hash ∈ st.hashes
      · rw [if_pos hc]; exact hc.2
      · rw [if_neg hc]; simp [hne]
    · exact ih (upsertStep st q) p h hne

/-- A batch every record of which carries a nonempty, already-stored
hash is skipped entirely: the fold leaves the store unchanged. -/
theorem upsert_fold_skip {V : Type} :
    ∀ (l : List (V × Meta)) (st : InMemoryStore V),
      (∀ p ∈ l, p.2.hash ≠ "" ∧ p.2.hash ∈ st.hashes) →
      l.foldl upsertStep st = st := by
  intro l
  induction l with
  | nil => intro st _; rfl
  | cons q l ih =>
    intro st h
    have hq := h q (List.mem_cons_self q l)
    have hstep : upsertStep st q = st := by
      unfold upsertStep
      split
      · rfl
      · next hc => exact absurd hq hc
    simp only [List.foldl_cons, hstep]
    exact ih st (fun p hp => h p (List.mem_cons_of_mem q hp))

/-- C4 (counterexample): `InMemoryStore.upsert` is NOT insert-or-replace.
Upserting, into a store already holding a record with hash key `"h"`, a
DIFFERENT record carrying the same hash key `"h"` does not replace the
stored record: the store is left completely unchanged and still holds
only the old record. -/
theorem upsert_no_replace_counterexample :
    InMemoryStore.upsert
        (InMemoryStore.upsert (InMemoryStore.init Unit 384) [()]
          [{ id := "h", hash := "h", title := "T.md", sectionName := some "S",
             text := "old", heading_level := 0, section_priority := "low" }])
        [()]
        [{ id := "h", hash := "h", title := "T.md", sectionName := some "S",
           text := "new", heading_level := 0, section_priority := "low" }]
      = InMemoryStore.upsert (InMemoryStore.init Unit 384) [()]
          [{ id := "h", hash := "h", title := "T.md", sectionName := some "S",
             text := "old", heading_level := 0, section_priority := "low" }] ∧
    (InMemoryStore.upsert
        (InMemoryStore.upsert (InMemoryStore.init Unit 384) [()]
          [{ id := "h", hash := "h", title := "T.md", sectionName := some "S",
             text := "old", heading_level := 0, section_priority := "low" }])
        [()]
        [{ id := "h", hash := "h", title := "T.md", sectionName := some "S",
           text := "new", heading_level := 0, section_priority := "low" }]).meta
      = [{ id := "h", hash := "h", title := "T.md", sectionName := some "S",
           text := "old", heading_level := 0, section_priority := "low" }] ∧
    ({ id := "h", hash := "h", title := "T.md", sectionName := some "S",
       text := "old", heading_level := 0, section_priority := "low" } : Meta)
      ≠ { id := "h", hash := "h", title := "T.md", sectionName := some "S",
          text := "new", heading_level := 0, section_priority := "low" } := by
  decide

/-- C4 (amended): `InMemoryStore.upsert` is content-hash-keyed
insert-or-SKIP, and idempotent.  For every store state: a single record
whose nonempty hash key is not yet stored is appended (vector, metadata
and hash recorded); a record whose hash key is already stored is
skipped, leaving the store unchanged; and re-upserting a whole batch of
records with nonempty hashes is a no-op. -/
theorem upsert_insert_or_skip {V : Type} (st : InMemoryStore V) (v : V) (m : Meta)
    (vs : List V) (ms : List Meta) (hm : m.hash ≠ "")
    (hms : ∀ m' ∈ ms, m'.hash ≠ "") :
    (m.hash ∈ st.hashes → st.upsert [v] [m] = st) ∧
    (m.hash ∉ st.hashes → st.upsert [v] [m] =
      { st with vecs := st.vecs ++ [v], meta := st.meta ++ [m],
                hashes := insert m.hash st.hashes }) ∧
    (st.upsert vs ms).upsert vs ms = st.upsert vs ms := by
  refine ⟨?_, ?_, ?_⟩
  · intro hin
    show List.foldl upsertStep st [(v, m)] = st
    simp only [List.foldl_cons, List.foldl_nil]
    unfold upsertStep
    rw [if_pos ⟨hm, hin⟩]
  · intro hout
    show List.foldl upsertStep st [(v, m)] = _
    simp only [List.foldl_cons, List.foldl_nil]
    unfold upsertStep
    rw [if_neg (by simp [hout]), if_pos hm]
  · show List.foldl upsertStep (st.upsert vs ms) (vs.zip ms) = st.upsert vs ms
    apply upsert_fold_skip
    intro p hp
    have hmem := (List.of_mem_zip hp).2
    refine ⟨hms p.2 hmem, ?_⟩
    exact upsert_fold_adds (vs.zip ms) st p hp (hms p.2 hmem)

/-- Witness for `upsert_insert_or_skip`, at a one-record batch with
hash "h" over the unit vector type. -/
theorem upsert_insert_or_skip_witness :
    (({ id := "h", hash := "h", title := "T.md", sectionName := some "S",
        text := "x", heading_level := 0, section_priority := "low" } : Meta).hash ≠ "") ∧
    ((InMemoryStore.init Unit 384).upsert
        [()] [{ id := "h", hash := "h", title := "T.md", sectionName := some "S",
                text := "x", heading_level := 0, section_priority := "low" }]).upsert
        [()] [{ id := "h", hash := "h", title := "T.md", sectionName := some "S",
                text := "x", heading_level := 0, section_priority := "low" }]
      = (InMemoryStore.init Unit 384).upsert
          [()] [{ id := "h", hash := "h", title := "T.md", sectionName := some "S",
                  text := "x", heading_level := 0, section_priority := "low" }] :=
  ⟨by decide,
   (upsert_insert_or_skip (InMemoryStore.init Unit 384) ()
      { id := "h", hash := "h", title := "T.md", sectionName := some "S",
        text := "x", heading_level := 0, section_priority := "low" }
      [()]
      [{ id := "h", hash := "h", title := "T.md", sectionName := some "S",
         text := "x", heading_level := 0, section_priority := "low" }]
      (by decide) (by decide)).2.2⟩

/-- C6: every call to `RAGEngine.generate` increments `_ask_count` —
reported as `ask_count` by `stats()` — by exactly 1, both when the LLM
call returns normally and when it raises, and the LLM's outcome
(answer or exception) is propagated unchanged to the caller. -/
theorem generate_increments_ask_count {S E : Type}
    (llmGen : String → List Meta → Except E String) (elapsed_ms : ℚ)
    (st : EngineState S) (query : String) (contexts : List Meta)
    (em lm : String) :
    (RAGEngine.generate llmGen elapsed_ms st query contexts).2.ask_count
      = st.ask_count + 1 ∧
    (RAGEngine.stats em lm
        (RAGEngine.generate llmGen elapsed_ms st query contexts).2).ask_count
      = st.ask_count + 1 ∧
    (RAGEngine.generate llmGen elapsed_ms st query contexts).1
      = llmGen query contexts := by
  cases h : llmGen query contexts <;>
    simp [RAGEngine.generate, RAGEngine.stats, h]

/-- C7: vector-store selection of `RAGEngine.__init__`.  If the
configuration selects "qdrant" and the `QdrantStore` constructor raises,
the engine is still constructed, holds a fresh in-memory store, and
`stats()` reports `fallback_used = true`.  If the constructor succeeds,
or any other configuration value selects the in-memory store directly,
`stats()` reports `fallback_used = false`.  The decision is made once at
construction: neither `ingest_chunks` nor `generate` ever changes the
flag. -/
theorem store_fallback_spec {Q V E : Type} (vector_store : String)
    (qdrantInit : Except E Q) (em lm : String) :
    (vector_store = "qdrant" → ∀ e : E, qdrantInit = .error e →
      (engineInit (Q := Q) (V := V) vector_store qdrantInit).store
          = .memory (InMemoryStore.init V 384) ∧
      (RAGEngine.stats em lm
          (engineInit (Q := Q) (V := V) vector_store qdrantInit)).fallback_used
        = true) ∧
    (∀ q : Q, qdrantInit = .ok q →
      (RAGEngine.stats em lm
          (engineInit (Q := Q) (V := V) vector_store qdrantInit)).fallback_used
        = false) ∧
    (vector_store ≠ "qdrant" →
      (engineInit (Q := Q) (V := V) vector_store qdrantInit).store
          = .memory (InMemoryStore.init V 384) ∧
      (RAGEngine.stats em lm
          (engineInit (Q := Q) (V := V) vector_store qdrantInit)).fallback_used
        = false) ∧
    (∀ (V' S' E' : Type) (hash : String → String) (embed : String → V')
        (upsertF : S' → List V' → List Meta → Except E' S')
        (st : EngineState S') (chunks : List Chunk),
      (ingest_chunks hash embed upsertF st chunks).2.1.fallback_used
        = st.fallback_used) ∧
    (∀ (S' E' : Type) (llmGen : String → List Meta → Except E' String)
        (ms : ℚ) (st : EngineState S') (q : String) (c : List Meta),
      (RAGEngine.generate llmGen ms st q c).2.fallback_used = st.fallback_used) := by
  refine ⟨?_, ?_, ?_, ?_, ?_⟩
  · intro hvs e he
    subst hvs he
    exact ⟨rfl, rfl⟩
  · intro q hq
    subst hq
    by_cases hvs : vector_store = "qdrant"
    · subst hvs; rfl
    · simp [RAGEngine.stats, engineInit, selectStore, hvs]
  · intro hvs
    constructor
    · simp [engineInit, selectStore, hvs]
    · simp [RAGEngine.stats, engineInit, selectStore, hvs]
  · intro V' S' E' hash embed upsertF st chunks
    dsimp only [ingest_chunks]
    split
    · rfl
    · split <;> rfl
  · intro S' E' llmGen ms st q c
    cases h : llmGen q c <;> simp [RAGEngine.generate, h]

/-- Witness for `store_fallback_spec`: configured store "qdrant" whose
construction fails; the engine falls back to the in-memory store and
reports `fallback_used = true`. -/
theorem store_fallback_spec_witness :
    (engineInit (Q := Unit) (V := Unit) "qdrant"
        (Except.error () : Except Unit Unit)).store
      = .memory (InMemoryStore.init Unit 384) ∧
    (RAGEngine.stats "local-hash" "stub"
        (engineInit (Q := Unit) (V := Unit) "qdrant"
          (Except.error () : Except Unit Unit))).fallback_used = true :=
  (store_fallback_spec "qdrant" (Except.error ()) "local-hash" "stub").1 rfl () rfl

/-- C1 (failing input): the seed step of `_mmr_rerank` ignores the
metadata boost.  With two candidates of equal raw similarity 0.5 in
which the second is tagged `heading_level = 1`,
`section_priority = "high"` and the first is untagged, the reranker
(at k = 1 < 2 candidates) selects the UNTAGGED first candidate, even
though the tagged candidate's metadata-boosted score
(0.5 × 1.2 × 1.15 = 0.69) strictly exceeds the untagged one's (0.5):
the code's seed is `remaining.pop(0)`, the first candidate, computed
without any boost — contradicting the code's own comment "Start with
highest-scoring result (with metadata boost applied)". -/
theorem mmr_seed_ignores_boost :
    mmrRerank (7/10)
      [((1 : ℚ)/2,
        { id := "u", hash := "u", title := "Untagged.md", sectionName := none,
          text := "u", heading_level := 0, section_priority := "low" }),
       ((1 : ℚ)/2,
        { id := "t", hash := "t", title := "Tagged.md", sectionName := some "SLA",
          text := "t", heading_level := 1, section_priority := "high" })] 1
      = [{ id := "u", hash := "u", title := "Untagged.md", sectionName := none,
           text := "u", heading_level := 0, section_priority := "low" }] ∧
    ((1 : ℚ)/2) * boostFactor
        { id := "t", hash := "t", title := "Tagged.md", sectionName := some "SLA",
          text := "t", heading_level := 1, section_priority := "high" }
      > ((1 : ℚ)/2) * boostFactor
        { id := "u", hash := "u", title := "Untagged.md", sectionName := none,
          text := "u", heading_level := 0, section_priority := "low" } := by
  refine ⟨by decide, ?_⟩
  norm_num [boostFactor]
  rw [if_neg (by decide), if_neg (by decide)]
  norm_num

/-- The ingest loop never removes a hash from the engine's dedup set. -/
theorem ingest_fold_hashes_mono {V : Type} (hash : String → String)
    (embed : String → V) :
    ∀ (chunks : List Chunk) (acc : IngestAcc V),
      acc.hashes ⊆ (chunks.foldl (ingestStep hash embed) acc).hashes := by
  intro chunks
  induction chunks with
  | nil => intro acc; exact Finset.Subset.refl _
  | cons ch chunks ih =>
    intro acc
    refine Finset.Subset.trans ?_ (ih (ingestStep hash embed acc ch))
    unfold ingestStep
    split
    · exact Finset.Subset.refl _
    · exact Finset.subset_insert _ _

/-- After the ingest loop, the hash of every processed chunk is in the
engine's dedup set. -/
theorem ingest_fold_adds {V : Type} (hash : String → String) (embed : String → V) :
    ∀ (chunks : List Chunk) (acc : IngestAcc V), ∀ ch ∈ chunks,
      hash ch.text ∈ (chunks.foldl (ingestStep hash embed) acc).hashes := by
  intro chunks
  induction chunks with
  | nil => intro acc ch hch; exact absurd hch (List.not_mem_nil ch)
  | cons ch0 chunks ih =>
    intro acc ch hch
    rcases List.mem_cons.1 hch with h | h
    · subst h
      simp only [List.foldl_cons]
      apply ingest_fold_hashes_mono
      unfold ingestStep
      split
      · next hc => exact hc
      · exact Finset.mem_insert_self _ _
    · exact ih (ingestStep hash embed acc ch0) ch h

/-- A chunk list all of whose hashes are already in the dedup set is
skipped entirely: the ingest loop leaves the accumulator unchanged. -/
theorem ingest_fold_skip {V : Type} (hash : String → String) (embed : String → V) :
    ∀ (chunks : List Chunk) (acc : IngestAcc V),
      (∀ ch ∈ chunks, hash ch.text ∈ acc.hashes) →
      chunks.foldl (ingestStep hash embed) acc = acc := by
  intro chunks
  induction chunks with
  | nil => intro acc _; rfl
  | cons ch chunks ih =>
    intro acc h
    have hstep : ingestStep hash embed acc ch = acc := by
      unfold ingestStep
      rw [if_pos (h ch (List.mem_cons_self ch chunks))]
    simp only [List.foldl_cons, hstep]
    exact ih acc (fun c hc => h c (List.mem_cons_of_mem ch hc))

/-- After any `ingest_chunks` call — whether the upsert succeeded,
failed, or was skipped — the hash of every chunk of the call is in the
engine's dedup set. -/
theorem ingest_chunks_hashes {V S E : Type} (hash : String → String)
    (embed : String → V) (upsertF : S → List V → List Meta → Except E S)
    (st : EngineState S) (chunks : List Chunk) :
    ∀ ch ∈ chunks,
      hash ch.text ∈ (ingest_chunks hash embed upsertF st chunks).2.1.chunk_hashes := by
  intro ch hch
  dsimp only [ingest_chunks]
  split
  · exact ingest_fold_adds hash embed chunks _ ch hch
  · split
    · exact ingest_fold_adds hash embed chunks _ ch hch
    · exact ingest_fold_adds hash embed chunks _ ch hch

/-- An `ingest_chunks` call all of whose chunk hashes are already in
the engine's dedup set returns `(0, 0)`, changes nothing, and issues no
upsert (its metadata batch is empty). -/
theorem ingest_chunks_skip {V S E : Type} (hash : String → String)
    (embed : String → V) (upsertF : S → List V → List Meta → Except E S)
    (st : EngineState S) (chunks : List Chunk)
    (h : ∀ ch ∈ chunks, hash ch.text ∈ st.chunk_hashes) :
    ingest_chunks hash embed upsertF st chunks = (.ok (0, 0), st, []) := by
  dsimp only [ingest_chunks]
  rw [ingest_fold_skip hash embed chunks _ (by exact h)]
  simp

/-- C2: `RAGEngine.ingest_chunks` is idempotent.  With a store whose
upsert succeeds (e.g. the in-memory store), the first call over any
chunk list returns some `(N, M)`; the immediately repeated call over
the same chunk list returns exactly `(0, 0)`, leaves the whole engine
state — vector store, distinct-title set and chunk counter included —
unchanged, and issues no upsert (its batch is empty). -/
theorem ingest_chunks_idempotent {V S : Type} (hash : String → String)
    (embed : String → V) (upsertT : S → List V → List Meta → S)
    (st : EngineState S) (chunks : List Chunk) :
    (∃ N M, (ingest_chunks hash embed
        (fun s v m => (Except.ok (upsertT s v m) : Except Unit S))
        st chunks).1 = Except.ok (N, M)) ∧
    ingest_chunks hash embed
        (fun s v m => (Except.ok (upsertT s v m) : Except Unit S))
        (ingest_chunks hash embed
          (fun s v m => (Except.ok (upsertT s v m) : Except Unit S))
          st chunks).2.1 chunks
      = (Except.ok (0, 0),
         (ingest_chunks hash embed
            (fun s v m => (Except.ok (upsertT s v m) : Except Unit S))
            st chunks).2.1,
         []) := by
  constructor
  · dsimp only [ingest_chunks]
    split
    · exact ⟨_, _, rfl⟩
    · exact ⟨_, _, rfl⟩
  · exact ingest_chunks_skip _ _ _ _ _ (ingest_chunks_hashes _ _ _ _ _)

/-- C9: `ingest_chunks` is not atomic with respect to the engine state
on upsert failure.  When the single batch upsert at the end of the call
raises, the exception propagates, no record reaches the store (the
engine's store is unchanged), yet the dedup-hash updates made before
the upsert persist — so repeating the call with the same chunks returns
`(0, 0)` without attempting storage (empty batch, state unchanged),
even though nothing was ever stored. -/
theorem ingest_not_atomic_on_upsert_failure {V S E : Type}
    (hash : String → String) (embed : String → V)
    (upsertF : S → List V → List Meta → Except E S)
    (st : EngineState S) (chunks : List Chunk) (e : E)
    (hfail : (ingest_chunks hash embed upsertF st chunks).1 = .error e) :
    (ingest_chunks hash embed upsertF st chunks).2.1.store = st.store ∧
    (∀ ch ∈ chunks,
      hash ch.text ∈ (ingest_chunks hash embed upsertF st chunks).2.1.chunk_hashes) ∧
    ingest_chunks hash embed upsertF
        (ingest_chunks hash embed upsertF st chunks).2.1 chunks
      = (.ok (0, 0), (ingest_chunks hash embed upsertF st chunks).2.1, []) := by
  refine ⟨?_, ingest_chunks_hashes _ _ _ _ _,
          ingest_chunks_skip _ _ _ _ _ (ingest_chunks_hashes _ _ _ _ _)⟩
  dsimp only [ingest_chunks] at hfail ⊢
  by_cases hemp : (List.foldl (ingestStep hash embed)
      { hashes := st.chunk_hashes, titles := st.doc_titles,
        count := st.chunk_count, vectors := [], metas := [] } chunks).vectors.isEmpty
  · rw [if_pos hemp] at hfail
    exact absurd hfail (by simp)
  · rw [if_neg hemp] at hfail ⊢
    cases hup : upsertF st.store
        (List.foldl (ingestStep hash embed)
          { hashes := st.chunk_hashes, titles := st.doc_titles,
            count := st.chunk_count, vectors := [], metas := [] } chunks).vectors
        (List.foldl (ingestStep hash embed)
          { hashes := st.chunk_hashes, titles := st.doc_titles,
            count := st.chunk_count, vectors := [], metas := [] } chunks).metas with
    | ok s2 =>
      rw [hup] at hfail
      exact absurd hfail (by simp)
    | error e2 => rfl

/-- Witness for `ingest_not_atomic_on_upsert_failure`: one new chunk,
a store whose upsert always raises.  The first call propagates the
error yet keeps the store untouched; the theorem then gives the
persisted dedup state and the `(0, 0)` second call. -/
theorem ingest_not_atomic_witness :
    (ingest_chunks (fun t => t) (fun _ => ())
        (fun _ _ _ => (Except.error () : Except Unit Unit))
        { store := (), doc_titles := ∅, chunk_hashes := ∅, chunk_count := 0,
          ask_count := 0, fallback_used := false, t_retrieval := [], t_generation := [] }
        [{ title := "A.md", sectionName := some "S", text := "hello",
           heading_level := 1, section_priority := "high" }]).1
      = Except.error () ∧
    (ingest_chunks (fun t => t) (fun _ => ())
        (fun _ _ _ => (Except.error () : Except Unit Unit))
        { store := (), doc_titles := ∅, chunk_hashes := ∅, chunk_count := 0,
          ask_count := 0, fallback_used := false, t_retrieval := [], t_generation := [] }
        [{ title := "A.md", sectionName := some "S", text := "hello",
           heading_level := 1, section_priority := "high" }]).2.1.store
      = () :=
  ⟨by rfl,
   (ingest_not_atomic_on_upsert_failure (fun t => t) (fun _ => ())
      (fun _ _ _ => (Except.error () : Except Unit Unit))
      { store := (), doc_titles := ∅, chunk_hashes := ∅, chunk_count := 0,
        ask_count := 0, fallback_used := false, t_retrieval := [], t_generation := [] }
      [{ title := "A.md", sectionName := some "S", text := "hello",
         heading_level := 1, section_priority := "high" }]
      () (by rfl)).1⟩

/-- Past the end of the token list the chunk loop yields nothing, for
any fuel (the `while i < len(tokens)` guard fails). -/
theorem chunkLoop_of_le (tokens : List String) (cs ov : Nat) (i : Nat)
    (h : tokens.length ≤ i) :
    ∀ fuel, chunkLoop tokens cs ov fuel i = [] := by
  intro fuel
  cases fuel with
  | zero => rfl
  | succ f =>
    unfold chunkLoop
    rw [if_neg (by omega)]

/-- C10: the `while` loop of `chunk_text` terminates whenever
`overlap < chunk_size`.  In the fuel embedding: as soon as the
iteration budget exceeds the number of tokens not yet consumed, the
result no longer depends on the budget — every iteration either breaks
or advances the window start by `chunk_size − overlap ≥ 1`, so the
Python loop makes at most `len(tokens)` iterations.  (Without
`overlap < chunk_size` the start index does not advance and no such
budget exists.) -/
theorem chunkLoop_fuel_irrelevant (tokens : List String) (cs ov : Nat)
    (hov : ov < cs) :
    ∀ (f₁ f₂ i : Nat), tokens.length < i + f₁ → tokens.length < i + f₂ →
      chunkLoop tokens cs ov f₁ i = chunkLoop tokens cs ov f₂ i := by
  intro f₁
  induction f₁ with
  | zero =>
    intro f₂ i h1 h2
    rw [chunkLoop_of_le tokens cs ov i (by omega) 0,
        chunkLoop_of_le tokens cs ov i (by omega) f₂]
  | succ f ih =>
    intro f₂ i h1 h2
    by_cases hi : i < tokens.length
    · cases f₂ with
      | zero => omega
      | succ g =>
        unfold chunkLoop
        rw [if_pos hi, if_pos hi]
        by_cases hbreak : tokens.length ≤ i + cs
        · rw [if_pos hbreak, if_pos hbreak]
        · rw [if_neg hbreak, if_neg hbreak]
          have : chunkLoop tokens cs ov f (i + (cs - ov))
              = chunkLoop tokens cs ov g (i + (cs - ov)) := by
            apply ih <;> omega
          rw [this]
    · rw [chunkLoop_of_le tokens cs ov i (by omega) (f + 1),
          chunkLoop_of_le tokens cs ov i (by omega) f₂]

/-- Witness for `chunkLoop_fuel_irrelevant`: on the spec's eight-token
example with window 3 and overlap 1, budgets 9 and 100 agree (and give
the documented chunks). -/
theorem chunkLoop_fuel_irrelevant_witness :
    1 < 3 ∧
    chunkLoop (pySplit "one two three four five six seven eight") 3 1 9 0
      = chunkLoop (pySplit "one two three four five six seven eight") 3 1 100 0 :=
  ⟨by decide,
   chunkLoop_fuel_irrelevant (pySplit "one two three four five six seven eight") 3 1
     (by decide) 9 100 0 (by decide) (by decide)⟩

/-- Window characterisation of the chunk loop: with enough fuel, the
`j`-th produced chunk is exactly the join of the window of `chunk_size`
tokens starting `j` strides of `chunk_size − overlap` after `i`. -/
theorem chunkLoop_windows (tokens : List String) (cs ov : Nat) (hov : ov < cs) :
    ∀ (fuel i : Nat), tokens.length < i + fuel →
      ∀ j < (chunkLoop tokens cs ov fuel i).length,
        (chunkLoop tokens cs ov fuel i).getD j ""
          = " ".intercalate ((tokens.drop (i + j * (cs - ov))).take cs) := by
  intro fuel
  induction fuel with
  | zero =>
    intro i hb j hj
    simp only [chunkLoop, List.length_nil] at hj
    omega
  | succ f ih =>
    intro i hb j hj
    by_cases hi : i < tokens.length
    · unfold chunkLoop at hj ⊢
      rw [if_pos hi] at hj ⊢
      by_cases hbreak : tokens.length ≤ i + cs
      · rw [if_pos hbreak] at hj ⊢
        simp only [List.length_cons, List.length_nil] at hj
        have hj0 : j = 0 := by omega
        subst hj0
        simp
      · rw [if_neg hbreak] at hj ⊢
        cases j with
        | zero => simp
        | succ jj =>
          simp only [List.length_cons] at hj
          rw [List.getD_cons_succ]
          have e : i + (cs - ov) + jj * (cs - ov) = i + (jj + 1) * (cs - ov) := by
            ring
          rw [ih (i + (cs - ov)) (by omega) jj (by omega), e]
    · rw [chunkLoop_of_le tokens cs ov i (by omega) (f + 1)] at hj
      simp at hj

/-- Coverage: with enough fuel, every token position from `i` on lies
inside the window of some produced chunk. -/
theorem chunkLoop_covers (tokens : List String) (cs ov : Nat) (hov : ov < cs) :
    ∀ (fuel i : Nat), tokens.length < i + fuel →
      ∀ p, i ≤ p → p < tokens.length →
        ∃ j, j < (chunkLoop tokens cs ov fuel i).length ∧
          i + j * (cs - ov) ≤ p ∧ p < i + j * (cs - ov) + cs := by
  intro fuel
  induction fuel with
  | zero => intro i hb p hip hpn; omega
  | succ f ih =>
    intro i hb p hip hpn
    have hi : i < tokens.length := by omega
    unfold chunkLoop
    rw [if_pos hi]
    by_cases hbreak : tokens.length ≤ i + cs
    · rw [if_pos hbreak]
      exact ⟨0, by simp, by omega, by omega⟩
    · rw [if_neg hbreak]
      by_cases hp : p < i + (cs - ov)
      · exact ⟨0, by simp, by omega, by omega⟩
      · obtain ⟨j', hj', h1, h2⟩ :=
          ih (i + (cs - ov)) (by omega) p (by omega) hpn
        refine ⟨j' + 1, by simpa using Nat.succ_lt_succ hj', ?_, ?_⟩
        · have e : i + (cs - ov) + j' * (cs - ov) = i + (j' + 1) * (cs - ov) := by
            ring
          omega
        · have e : i + (cs - ov) + j' * (cs - ov) = i + (j' + 1) * (cs - ov) := by
            ring
          omega

/-- C5: `chunk_text(text, chunk_size, overlap)` under
`0 ≤ overlap < chunk_size` word-tokenizes the text (Python
`text.split()`) and returns the windows of `chunk_size` tokens starting
at token indices 0, s, 2s, … with stride `s = chunk_size − overlap`
(the last window may be shorter — `take` past the end); every token
lies in at least one returned window; empty text yields `[]`; and the
spec's example holds:
`chunk_text "one two three four five six seven eight" 3 1 =
["one two three", "three four five", "five six seven", "seven eight"]`. -/
theorem chunk_text_spec (text : String) (cs ov : Nat) (hov : ov < cs) :
    (∀ j < (chunk_text text cs ov).length,
      (chunk_text text cs ov).getD j ""
        = " ".intercalate (((pySplit text).drop (j * (cs - ov))).take cs)) ∧
    (∀ p < (pySplit text).length,
      ∃ j, j < (chunk_text text cs ov).length ∧
        j * (cs - ov) ≤ p ∧ p < j * (cs - ov) + cs) ∧
    (text = "" → chunk_text text cs ov = []) ∧
    chunk_text "one two three four five six seven eight" 3 1
      = ["one two three", "three four five", "five six seven", "seven eight"] := by
  refine ⟨?_, ?_, ?_, by decide⟩
  · intro j hj
    have := chunkLoop_windows (pySplit text) cs ov hov ((pySplit text).length + 1) 0
      (by omega) j hj
    simpa using this
  · intro p hp
    have := chunkLoop_covers (pySplit text) cs ov hov ((pySplit text).length + 1) 0
      (by omega) p (by omega) hp
    simpa using this
  · intro h
    subst h
    show chunkLoop (pySplit "") cs ov _ 0 = []
    exact chunkLoop_of_le _ cs ov 0 (by decide) _

/-- Witness for `chunk_text_spec`: the spec's eight-token example at
window 3, overlap 1. -/
theorem chunk_text_spec_witness :
    1 < 3 ∧
    chunk_text "one two three four five six seven eight" 3 1
      = ["one two three", "three four five", "five six seven", "seven eight"] :=
  ⟨by decide,
   (chunk_text_spec "one two three four five six seven eight" 3 1 (by decide)).2.2.2⟩

/-- Specification of the running-maximum fold of `loopPick`, after the
accumulator has become `some`: the fold returns the running maximum
together with the enumeration index of its first occurrence (the
strict `>` test keeps the earliest index on ties, exactly as the
Python `if mmr_score > best_mmr` does). -/
theorem pick_fold_spec (f : ℚ × Meta → ℚ) :
    ∀ (l : List (ℚ × Meta)) (n : Nat) (b : ℚ) (j : Nat),
      ∃ b' j',
        (l.enumFrom n).foldl
          (fun best p =>
            match best.1 with
            | none => (some (f p.2), p.1)
            | some bb => if f p.2 > bb then (some (f p.2), p.1) else best)
          (some b, j) = (some b', j') ∧
        b ≤ b' ∧ (∀ p ∈ l, f p ≤ b') ∧
        ((b' = b ∧ j' = j) ∨
         (∃ i, i < l.length ∧ j' = n + i ∧ b' = f (l.getD i default) ∧ b < b' ∧
            ∀ i' < i, f (l.getD i' default) < b')) := by
  intro l
  induction l with
  | nil =>
    intro n b j
    exact ⟨b, j, rfl, le_refl b, by simp, Or.inl ⟨rfl, rfl⟩⟩
  | cons x xs ih =>
    intro n b j
    simp only [List.enumFrom, List.foldl_cons]
    by_cases hx : f x > b
    · rw [if_pos hx]
      obtain ⟨b', j', heq, hle, hub, hcase⟩ := ih (n + 1) (f x) n
      refine ⟨b', j', heq, le_of_lt (lt_of_lt_of_le hx hle), ?_, ?_⟩
      · intro p hp
        rcases List.mem_cons.1 hp with h | h
        · subst h; exact hle
        · exact hub p h
      · rcases hcase with ⟨hb', hj'⟩ | ⟨i, hi, hj', hb', hlt, hstrict⟩
        · refine Or.inr ⟨0, by simp, by omega, ?_, ?_, ?_⟩
          · rw [List.getD_cons_zero, hb']
          · rw [hb']; exact hx
          · intro i' hi'; omega
        · refine Or.inr ⟨i + 1, by simpa using Nat.succ_lt_succ hi, by omega, ?_,
            lt_trans hx hlt, ?_⟩
          · rw [List.getD_cons_succ, hb']
          · intro i' hi'
            cases i' with
            | zero => rw [List.getD_cons_zero]; exact hlt
            | succ ii => rw [List.getD_cons_succ]; exact hstrict ii (by omega)
    · rw [if_neg hx]
      obtain ⟨b', j', heq, hle, hub, hcase⟩ := ih (n + 1) b j
      refine ⟨b', j', heq, hle, ?_, ?_⟩
      · intro p hp
        rcases List.mem_cons.1 hp with h | h
        · subst h; exact le_trans (le_of_not_lt hx) hle
        · exact hub p h
      · rcases hcase with ⟨hb', hj'⟩ | ⟨i, hi, hj', hb', hlt, hstrict⟩
        · exact Or.inl ⟨hb', hj'⟩
        · refine Or.inr ⟨i + 1, by simpa using Nat.succ_lt_succ hi, by omega, ?_,
            hlt, ?_⟩
          · rw [List.getD_cons_succ, hb']
          · intro i' hi'
            cases i' with
            | zero =>
              rw [List.getD_cons_zero]
              exact lt_of_le_of_lt (le_of_not_lt hx) hlt
            | succ ii => rw [List.getD_cons_succ]; exact hstrict ii (by omega)

/-- The scan `loopPick` returns the first index of the pool attaining the
maximal MMR objective: an in-range index whose objective is an upper
bound of all objectives, strictly above every earlier position. -/
theorem loopPick_argmax (lam : ℚ) (selected : List Meta)
    (remaining : List (ℚ × Meta)) (h : remaining ≠ []) :
    (loopPick lam selected remaining).2 < remaining.length ∧
    (∀ i < remaining.length,
      mmrScore lam selected (remaining.getD i default).1 (remaining.getD i default).2
        ≤ mmrScore lam selected
            (remaining.getD (loopPick lam selected remaining).2 default).1
            (remaining.getD (loopPick lam selected remaining).2 default).2) ∧
    (∀ i < (loopPick lam selected remaining).2,
      mmrScore lam selected (remaining.getD i default).1 (remaining.getD i default).2
        < mmrScore lam selected
            (remaining.getD (loopPick lam selected remaining).2 default).1
            (remaining.getD (loopPick lam selected remaining).2 default).2) := by
  cases remaining with
  | nil => exact absurd rfl h
  | cons x xs =>
    obtain ⟨b', j', heq, hle, hub, hcase⟩ :=
      pick_fold_spec (fun p => mmrScore lam selected p.1 p.2) xs 1
        (mmrScore lam selected x.1 x.2) 0
    have hlp : loopPick lam selected (x :: xs) = (some b', j') := by
      unfold loopPick
      rw [show (x :: xs).enum = (0, x) :: xs.enumFrom 1 from rfl, List.foldl_cons]
      exact heq
    have hval : mmrScore lam selected ((x :: xs).getD j' default).1
        ((x :: xs).getD j' default).2 = b' := by
      rcases hcase with ⟨hb', hj'⟩ | ⟨i, hi, hj', hb', _, _⟩
      · subst hj'
        rw [List.getD_cons_zero, hb']
      · rw [show j' = i + 1 from by omega, List.getD_cons_succ, hb']
    rw [hlp]
    refine ⟨?_, ?_, ?_⟩
    · rcases hcase with ⟨_, hj'⟩ | ⟨i, hi, hj', _, _, _⟩
      · subst hj'; simp
      · simp only [List.length_cons]; omega
    · intro i hi
      rw [hval]
      cases i with
      | zero => rw [List.getD_cons_zero]; exact hle
      | succ ii =>
        rw [List.getD_cons_succ]
        simp only [List.length_cons] at hi
        have hmem : xs.getD ii default ∈ xs := by
          rw [List.getD_eq_getElem xs default (by omega)]
          exact List.getElem_mem _
        exact hub _ hmem
    · intro i hi
      rw [hval]
      rcases hcase with ⟨_, hj'⟩ | ⟨i0, hi0, hj', hb', hlt, hstrict⟩
      · omega
      · cases i with
        | zero => rw [List.getD_cons_zero]; exact hlt
        | succ ii =>
          rw [List.getD_cons_succ]
          exact hstrict ii (by omega)

/-- C3: one step of the greedy phase of `_mmr_rerank` (after the seed,
while fewer than `k` are selected and the pool is nonempty) selects and
moves to the selection the pool element of least index attaining the
maximum of
`0.7·(rawScore·boostFactor) − 0.3·penalty`, where `boostFactor` is the
composed heading-level × section-priority factor and `penalty` is 1
exactly when some already-selected item has the identical
(title, section) pair, else 0 — so ties go to the earliest position in
the pool (which preserves the original candidate order). -/
theorem mmr_greedy_step_argmax (selected : List Meta)
    (remaining : List (ℚ × Meta)) (k fuel : Nat)
    (h1 : selected.length < k) (h2 : remaining ≠ []) :
    let obj : Nat → ℚ := fun i =>
      (7/10 : ℚ) * ((remaining.getD i default).1
          * boostFactor (remaining.getD i default).2)
        - (3/10 : ℚ) * (if selected.any (fun s =>
            s.title = (remaining.getD i default).2.title ∧
            s.sectionName = (remaining.getD i default).2.sectionName)
          then 1 else 0)
    let j := (loopPick (7/10) selected remaining).2
    j < remaining.length ∧
    (∀ i < remaining.length, obj i ≤ obj j) ∧
    (∀ i < j, obj i < obj j) ∧
    mmrLoop (7/10) k (fuel + 1) selected remaining
      = mmrLoop (7/10) k fuel
          (selected ++ [(remaining.getD j default).2])
          (remaining.eraseIdx j) := by
  intro obj j
  obtain ⟨hlt, hub, hstrict⟩ := loopPick_argmax (7/10) selected remaining h2
  have hobj : ∀ i, obj i = mmrScore (7/10) selected
      (remaining.getD i default).1 (remaining.getD i default).2 := by
    intro i
    show (7/10 : ℚ) * ((remaining.getD i default).1
          * boostFactor (remaining.getD i default).2)
        - (3/10 : ℚ) * (if selected.any (fun s =>
            s.title = (remaining.getD i default).2.title ∧
            s.sectionName = (remaining.getD i default).2.sectionName)
          then 1 else 0)
      = mmrScore (7/10) selected (remaining.getD i default).1
          (remaining.getD i default).2
    unfold mmrScore maxSim
    rw [show (1 - 7/10 : ℚ) = 3/10 from by norm_num]
  refine ⟨hlt, ?_, ?_, ?_⟩
  · intro i hi
    rw [hobj i, hobj j]
    exact hub i hi
  · intro i hi
    rw [hobj i, hobj j]
    exact hstrict i hi
  · conv_lhs => rw [mmrLoop]
    rw [if_pos ⟨h1, h2⟩]

/-- Witness for `mmr_greedy_step_argmax`: a one-element pool with one
already-selected item; the chosen index is in range. -/
theorem mmr_greedy_step_argmax_witness :
    ([{ id := "a", hash := "a", title := "A.md", sectionName := some "S",
        text := "a", heading_level := 0, section_priority := "low" }] : List Meta).length < 2 ∧
    (loopPick (7/10)
        [{ id := "a", hash := "a", title := "A.md", sectionName := some "S",
           text := "a", heading_level := 0, section_priority := "low" }]
        [((1 : ℚ)/2,
          { id := "b", hash := "b", title := "B.md", sectionName := some "T",
            text := "b", heading_level := 1, section_priority := "high" })]).2
      < ([((1 : ℚ)/2,
          { id := "b", hash := "b", title := "B.md", sectionName := some "T",
            text := "b", heading_level := 1, section_priority := "high" })] : List (ℚ × Meta)).length :=
  ⟨by decide,
   (mmr_greedy_step_argmax
      [{ id := "a", hash := "a", title := "A.md", sectionName := some "S",
         text := "a", heading_level := 0, section_priority := "low" }]
      [((1 : ℚ)/2,
        { id := "b", hash := "b", title := "B.md", sectionName := some "T",
          text := "b", heading_level := 1, section_priority := "high" })]
      2 0 (by decide) (List.cons_ne_nil _ _)).1⟩

/-- Every element the greedy loop outputs is either an already-selected
item or the metadata of some pool element. -/
theorem mmrLoop_mem (lam : ℚ) (k : Nat) :
    ∀ (fuel : Nat) (selected : List Meta) (remaining : List (ℚ × Meta)),
      ∀ m ∈ mmrLoop lam k fuel selected remaining,
        m ∈ selected ∨ ∃ s, (s, m) ∈ remaining := by
  intro fuel
  induction fuel with
  | zero => intro sel rem m hm; exact Or.inl hm
  | succ f ih =>
    intro sel rem m hm
    by_cases hc : sel.length < k ∧ rem ≠ []
    · rw [show mmrLoop lam k (f + 1) sel rem
          = mmrLoop lam k f (sel ++ [(rem.getD (loopPick lam sel rem).2 default).2])
              (rem.eraseIdx (loopPick lam sel rem).2) from by
        conv_lhs => rw [mmrLoop]
        rw [if_pos hc]] at hm
      rcases ih _ _ m hm with h | ⟨s, hs⟩
      · rcases List.mem_append.1 h with h | h
        · exact Or.inl h
        · have hj : (loopPick lam sel rem).2 < rem.length :=
            loopPick_lt lam sel rem hc.2
          have hm2 : m = (rem.getD (loopPick lam sel rem).2 default).2 := by
            simpa using h
          refine Or.inr ⟨(rem.getD (loopPick lam sel rem).2 default).1, ?_⟩
          rw [hm2, List.getD_eq_getElem rem default hj]
          simp [List.getElem_mem hj]
      · exact Or.inr ⟨s, (List.eraseIdx_sublist rem _).mem hs⟩
    · rw [show mmrLoop lam k (f + 1) sel rem = sel from by
        conv_lhs => rw [mmrLoop]
        rw [if_neg hc]] at hm
      exact Or.inl hm

/-- The document-loading fold only ever appends sections whose title is
a non-reserved file name. -/
theorem load_fold_title (mdSections : String → List (String × String × Nat))
    (prio : String → String) :
    ∀ (files : List (String × String)) (acc : List Doc),
      (∀ d ∈ acc, d.title ≠ "Internal_SOP_Agent_Guide.md") →
      ∀ d ∈ files.foldl (loadStep mdSections prio) acc,
        d.title ≠ "Internal_SOP_Agent_Guide.md" := by
  intro files
  induction files with
  | nil => intro acc hacc d hd; exact hacc d hd
  | cons f files ih =>
    intro acc hacc d hd
    refine ih (loadStep mdSections prio acc f) ?_ d hd
    intro d' hd'
    unfold loadStep at hd'
    by_cases hres : f.1 = "Internal_SOP_Agent_Guide.md"
    · rw [if_pos hres] at hd'; exact hacc d' hd'
    · rw [if_neg hres] at hd'
      by_cases hext : ¬ hasDocExt f.1
      · rw [if_pos hext] at hd'; exact hacc d' hd'
      · rw [if_neg hext] at hd'
        rcases List.mem_append.1 hd' with h | h
        · exact hacc d' h
        · obtain ⟨s, _, hs⟩ := List.mem_map.1 h
          rw [← hs]
          exact hres

/-- Every chunk the chunk-building fold outputs carries the title of
one of the input document sections. -/
theorem build_fold_title (cs ov : Nat) :
    ∀ (docs : List Doc) (out : List Chunk),
      ∀ c ∈ docs.foldl (buildStep cs ov) out,
        c ∈ out ∨ ∃ d ∈ docs, c.title = d.title := by
  intro docs
  induction docs with
  | nil => intro out c hc; exact Or.inl hc
  | cons d docs ih =>
    intro out c hc
    rcases ih (buildStep cs ov out d) c hc with h | ⟨d', hd', ht⟩
    · unfold buildStep at h
      rcases List.mem_append.1 h with h | h
      · exact Or.inl h
      · obtain ⟨ch, _, hch⟩ := List.mem_map.1 h
        exact Or.inr ⟨d, List.mem_cons_self d docs, by rw [← hch]⟩
    · exact Or.inr ⟨d', List.mem_cons_of_mem d hd', ht⟩

/-- Every metadata record the ingest loop batches carries the title of
one of the input chunks. -/
theorem ingest_fold_titles {V : Type} (hash : String → String)
    (embed : String → V) :
    ∀ (chunks : List Chunk) (acc : IngestAcc V),
      ∀ m ∈ (chunks.foldl (ingestStep hash embed) acc).metas,
        m ∈ acc.metas ∨ ∃ ch ∈ chunks, m.title = ch.title := by
  intro chunks
  induction chunks with
  | nil => intro acc m hm; exact Or.inl hm
  | cons ch chunks ih =>
    intro acc m hm
    rcases ih (ingestStep hash embed acc ch) m hm with h | ⟨ch', hch', ht⟩
    · unfold ingestStep at h
      by_cases hc : hash ch.text ∈ acc.hashes
      · rw [if_pos hc] at h; exact Or.inl h
      · rw [if_neg hc] at h
        simp only at h
        rcases List.mem_append.1 h with h | h
        · exact Or.inl h
        · have : m.title = ch.title := by
            rcases List.mem_singleton.1 h with rfl
            rfl
          exact Or.inr ⟨ch, List.mem_cons_self ch chunks, this⟩
    · exact Or.inr ⟨ch', List.mem_cons_of_mem ch hch', ht⟩

/-- C8: the reserved file name `Internal_SOP_Agent_Guide.md` never
appears as a title downstream of document loading.  For every input
directory listing (and arbitrary section splitter / priority
classifier), no document section returned by `load_documents` has the
reserved title; consequently no chunk built by
`build_chunks_from_docs` over those sections has it; every metadata
record batched for storage by `ingest_chunks` takes its title from
some input chunk; and every item returned by the reranker is the
metadata of one of its candidates — so a title absent from the
candidates (hence from the store) never appears among the returned
chunks or the citations derived from them. -/
theorem reserved_title_excluded
    (mdSections : String → List (String × String × Nat))
    (prio : String → String) (files : List (String × String))
    (cs ov : Nat) {V S E : Type} (hash : String → String)
    (embed : String → V) (upsertF : S → List V → List Meta → Except E S)
    (st : EngineState S) (chunks : List Chunk)
    (lam : ℚ) (cands : List (ℚ × Meta)) (k : Nat) :
    (∀ d ∈ load_documents mdSections prio files,
      d.title ≠ "Internal_SOP_Agent_Guide.md") ∧
    (∀ c ∈ build_chunks_from_docs (load_documents mdSections prio files) cs ov,
      c.title ≠ "Internal_SOP_Agent_Guide.md") ∧
    (∀ m ∈ (ingest_chunks hash embed upsertF st chunks).2.2,
      ∃ ch ∈ chunks, m.title = ch.title) ∧
    (∀ m ∈ mmrRerank lam cands k, ∃ s, (s, m) ∈ cands) := by
  have hload : ∀ d ∈ load_documents mdSections prio files,
      d.title ≠ "Internal_SOP_Agent_Guide.md" :=
    load_fold_title mdSections prio files [] (by simp)
  refine ⟨hload, ?_, ?_, ?_⟩
  · intro c hc
    rcases build_fold_title cs ov (load_documents mdSections prio files) [] c hc
      with h | ⟨d, hd, ht⟩
    · exact absurd h (List.not_mem_nil c)
    · rw [ht]
      exact hload d hd
  · intro m hm
    have hbatch : ∀ m' ∈ (ingest_chunks hash embed upsertF st chunks).2.2,
        m' ∈ (chunks.foldl (ingestStep hash embed)
          { hashes := st.chunk_hashes, titles := st.doc_titles,
            count := st.chunk_count, vectors := [], metas := [] }).metas := by
      intro m' hm'
      dsimp only [ingest_chunks] at hm'
      split at hm'
      · exact absurd hm' (List.not_mem_nil m')
      · split at hm' <;> exact hm'
    rcases ingest_fold_titles hash embed chunks _ m (hbatch m hm)
      with h | h
    · exact absurd h (List.not_mem_nil m)
    · exact h
  · intro m hm
    unfold mmrRerank at hm
    split at hm
    · obtain ⟨p, hp, hpm⟩ := List.mem_map.1 hm
      refine ⟨p.1, ?_⟩
      have hpc : p ∈ cands := List.take_subset k cands hp
      have : (p.1, m) = p := by rw [← hpm]
      rw [this]
      exact hpc
    · next hcond =>
      cases cands with
      | nil => simp at hcond
      | cons c0 rest =>
        obtain ⟨s0, m0⟩ := c0
        rcases mmrLoop_mem lam k rest.length [m0] rest m hm with h | ⟨s, hs⟩
        · rcases List.mem_singleton.1 h with rfl
          exact ⟨s0, List.mem_cons_self _ _⟩
        · exact ⟨s, List.mem_cons_of_mem _ hs⟩

/-- Witness for `reserved_title_excluded`: a one-file corpus
("Policy.md"), a trivial section splitter, one ingested chunk, and a
one-candidate rerank at k = 1. -/
theorem reserved_title_excluded_witness :
    { title := "Policy.md", sectionName := "Body", text := "hello world",
      heading_level := 0, section_priority := "low" }
      ∈ load_documents (fun t => [("Body", t, 0)]) (fun _ => "low")
          [("Policy.md", "hello world")] ∧
    ({ title := "Policy.md", sectionName := "Body", text := "hello world",
       heading_level := 0, section_priority := "low" } : Doc).title
      ≠ "Internal_SOP_Agent_Guide.md" :=
  ⟨by decide,
   (reserved_title_excluded (fun t => [("Body", t, 0)]) (fun _ => "low")
      [("Policy.md", "hello world")] 3 1 (fun t => t) (fun _ => ())
      (fun _ _ _ => (Except.ok () : Except Unit Unit))
      { store := (), doc_titles := ∅, chunk_hashes := ∅, chunk_count := 0,
        ask_count := 0, fallback_used := false, t_retrieval := [], t_generation := [] }
      [] (7/10) [] 1).1
     { title := "Policy.md", sectionName := "Body", text := "hello world",
       heading_level := 0, section_priority := "low" }
     (by decide)⟩
